import Mathlib

/-!
Verification of the cc-io host-side toolkit.

Bytes are modelled as natural numbers (< 256 on real inputs); Python's
`bytes` / `bytearray` values become `List Nat`.  A pre-allocated
`bytearray(n)` is `List.replicate n 0`, an element assignment `out[wi] = b`
is `List.set out wi b`, and slicing `out[:wi]` is `List.take wi out`.
Python functions that can raise become `Option`-valued.
-/

namespace CCIO

/-! ## COBS codec, from `src/ccio/cobs.py` -/

/-- The while-loop of `cobs_encode`.  State: remaining input (the source
reads `data[ri]`, which we consume from the front), output buffer `out`,
code-byte index `ci`, run counter `c`, write index `wi`.  Returns the
final `(out, ci, c, wi)` as left by the loop. -/
def cobs_encode_loop : List Nat → List Nat → Nat → Nat → Nat → List Nat × Nat × Nat × Nat
  | [], out, ci, c, wi => (out, ci, c, wi)
  | b :: rest, out, ci, c, wi =>
    if b = 0 then
      cobs_encode_loop rest (out.set ci c) wi 1 (wi + 1)
    else
      let out := out.set wi b
      let wi := wi + 1
      let c := c + 1
      if c = 0xFF then
        cobs_encode_loop rest (out.set ci c) wi 1 (wi + 1)
      else
        cobs_encode_loop rest out ci c wi

/-- The epilogue of `cobs_encode`: patch the code byte of the last run
(`out[ci] = c`) and return the written prefix (`out[:wi]`). -/
def encFinish : List Nat × Nat × Nat × Nat → List Nat
  | (out, ci, c, wi) => (out.set ci c).take wi

/-- `cobs_encode` from `src/ccio/cobs.py`: allocate
`len(data) + 1 + len(data) // 254` bytes, run the loop from
`ci = ri = 0`, `c = wi = 1`, patch the final code byte, return `out[:wi]`. -/
def cobs_encode (data : List Nat) : List Nat :=
  encFinish (cobs_encode_loop data (List.replicate (data.length + 1 + data.length / 254) 0)
    0 1 1)

/-- Write a block of bytes into the buffer at consecutive indices
(the `for i in range(c - 1)` copy loop of `cobs_decode`). -/
def writeBytes : List Nat → Nat → List Nat → List Nat
  | out, _, [] => out
  | out, wi, b :: bs => writeBytes (out.set wi b) (wi + 1) bs

/-- The while-loop of `cobs_decode`.  The source reads `c = data[ri]`,
rejects when `(ri + c) > len(data) and c != 1` (here `ri + c > len data`
is `c > rest.length + 1` for the remaining input `c :: rest`), copies the
next `c - 1` bytes, and appends an implicit zero when `c != 0xFF` and
input remains.  `none` models the early `return bytearray()`. -/
def cobs_decode_loop : List Nat → List Nat → Nat → Option (List Nat × Nat)
  | [], out, wi => some (out, wi)
  | c :: rest, out, wi =>
    if c > rest.length + 1 ∧ c ≠ 1 then
      none
    else
      let out := writeBytes out wi (rest.take (c - 1))
      let wi := wi + (c - 1)
      let rest' := rest.drop (c - 1)
      if c ≠ 0xFF ∧ rest' ≠ [] then
        cobs_decode_loop rest' (out.set wi 0) (wi + 1)
      else
        cobs_decode_loop rest' out wi
  termination_by data _ _ => data.length
  decreasing_by
    · simp only [List.length_cons, List.length_drop]; omega
    · simp only [List.length_cons, List.length_drop]; omega

/-- `cobs_decode` from `src/ccio/cobs.py`: allocate `len(data)` bytes,
run the loop, return `out[:wi]` (or the empty sequence on the early
return). -/
def cobs_decode (data : List Nat) : List Nat :=
  match cobs_decode_loop data (List.replicate data.length 0) 0 with
  | none => []
  | some (out, wi) => out.take wi

/-! ### A structural description of the encoder

`cobsETail grp rest` describes the remaining output of the encode loop
when the current (open) run already holds the bytes `grp` and `rest` is
the input still to scan.  It is related to `cobs_encode_loop` below and
is the vehicle for the round-trip proof. -/

def cobsETail : List Nat → List Nat → List Nat
  | grp, [] => (grp.length + 1) :: grp
  | grp, b :: rest =>
    if b = 0 then
      ((grp.length + 1) :: grp) ++ cobsETail [] rest
    else if grp.length + 2 = 0xFF then
      (0xFF :: (grp ++ [b])) ++ cobsETail [] rest
    else
      cobsETail (grp ++ [b]) rest

theorem cobsETail_nil (grp : List Nat) :
    cobsETail grp [] = (grp.length + 1) :: grp := rfl

theorem cobsETail_cons_zero (grp rest : List Nat) :
    cobsETail grp (0 :: rest) = ((grp.length + 1) :: grp) ++ cobsETail [] rest := by
  simp [cobsETail]

theorem cobsETail_cons_ff (grp : List Nat) (b : Nat) (rest : List Nat)
    (hb : b ≠ 0) (h : grp.length + 2 = 0xFF) :
    cobsETail grp (b :: rest) = (0xFF :: (grp ++ [b])) ++ cobsETail [] rest := by
  simp [cobsETail, hb, h]

theorem cobsETail_cons_nz (grp : List Nat) (b : Nat) (rest : List Nat)
    (hb : b ≠ 0) (h : grp.length + 2 ≠ 0xFF) :
    cobsETail grp (b :: rest) = cobsETail (grp ++ [b]) rest := by
  simp [cobsETail, hb, h]

theorem cobsETail_length_lower (rest : List Nat) :
    ∀ grp : List Nat, grp.length + rest.length + 1 ≤ (cobsETail grp rest).length := by
  induction rest with
  | nil => intro grp; simp [cobsETail_nil]
  | cons b rest ih =>
    intro grp
    by_cases hb : b = 0
    · subst hb
      rw [cobsETail_cons_zero]
      have := ih []
      simp only [List.length_append, List.length_cons, List.length_nil] at this ⊢
      omega
    · by_cases h255 : grp.length + 2 = 0xFF
      · rw [cobsETail_cons_ff grp b rest hb h255]
        have := ih []
        simp only [List.length_append, List.length_cons, List.length_nil] at this ⊢
        omega
      · rw [cobsETail_cons_nz grp b rest hb h255]
        have := ih (grp ++ [b])
        simp only [List.length_append, List.length_cons, List.length_nil] at this ⊢
        omega

theorem cobsETail_length_upper (rest : List Nat) :
    ∀ grp : List Nat, (cobsETail grp rest).length ≤
      grp.length + 1 + rest.length + (grp.length + rest.length) / 254 := by
  induction rest with
  | nil => intro grp; simp [cobsETail_nil]
  | cons b rest ih =>
    intro grp
    by_cases hb : b = 0
    · subst hb
      rw [cobsETail_cons_zero]
      have h1 := ih []
      simp only [List.length_append, List.length_cons, List.length_nil] at h1 ⊢
      have h2 : (0 + rest.length) / 254 ≤ (grp.length + (rest.length + 1)) / 254 :=
        Nat.div_le_div_right (by omega)
      omega
    · by_cases h255 : grp.length + 2 = 0xFF
      · rw [cobsETail_cons_ff grp b rest hb h255]
        have h1 := ih []
        simp only [List.length_append, List.length_cons, List.length_nil] at h1 ⊢
        have h2 : (grp.length + (rest.length + 1)) / 254 = rest.length / 254 + 1 := by
          rw [show grp.length + (rest.length + 1) = rest.length + 254 by omega]
          exact Nat.add_div_right rest.length (by norm_num)
        have h3 : (0 + rest.length) / 254 ≤ rest.length / 254 :=
          Nat.div_le_div_right (by omega)
        omega
      · rw [cobsETail_cons_nz grp b rest hb h255]
        have h1 := ih (grp ++ [b])
        simp only [List.length_append, List.length_cons, List.length_nil] at h1 ⊢
        have h2 : grp.length + 1 + rest.length = grp.length + (rest.length + 1) := by omega
        omega

/-! ### Relating the imperative encode loop to `cobsETail` -/

theorem set_append_right' {α : Type} (l1 l2 : List α) (n k : Nat) (v : α)
    (h : n = l1.length + k) : (l1 ++ l2).set n v = l1 ++ l2.set k v := by
  subst h
  induction l1 with
  | nil => simp
  | cons a l1 ih => simpa [List.set, Nat.add_right_comm] using ih

theorem take_append' {α : Type} (l1 l2 : List α) (n k : Nat)
    (h : n = l1.length + k) : (l1 ++ l2).take n = l1 ++ l2.take k := by
  subst h
  induction l1 with
  | nil => simp
  | cons a l1 ih => simpa [List.take, Nat.add_right_comm] using ih

theorem enc_loop_zero (rest out : List Nat) (ci c wi : Nat) :
    cobs_encode_loop (0 :: rest) out ci c wi
      = cobs_encode_loop rest (out.set ci c) wi 1 (wi + 1) := by
  simp [cobs_encode_loop]

theorem enc_loop_ff (b : Nat) (rest out : List Nat) (ci c wi : Nat)
    (hb : b ≠ 0) (h : c + 1 = 0xFF) :
    cobs_encode_loop (b :: rest) out ci c wi
      = cobs_encode_loop rest ((out.set wi b).set ci (c + 1)) (wi + 1) 1 (wi + 2) := by
  simp [cobs_encode_loop, hb, h]

theorem enc_loop_nz (b : Nat) (rest out : List Nat) (ci c wi : Nat)
    (hb : b ≠ 0) (h : c + 1 ≠ 0xFF) :
    cobs_encode_loop (b :: rest) out ci c wi
      = cobs_encode_loop rest (out.set wi b) ci (c + 1) (wi + 1) := by
  simp [cobs_encode_loop, hb, h]

theorem enc_loop_spec (rest : List Nat) :
    ∀ (pre grp pad : List Nat) (x : Nat), grp.length ≤ 253 →
      (cobsETail grp rest).length ≤ 1 + grp.length + pad.length →
      encFinish (cobs_encode_loop rest (pre ++ x :: (grp ++ pad)) pre.length
          (grp.length + 1) (pre.length + 1 + grp.length))
        = pre ++ cobsETail grp rest := by
  induction rest with
  | nil =>
    intro pre grp pad x _ _
    rw [cobsETail_nil]
    simp only [cobs_encode_loop, encFinish]
    rw [set_append_right' pre (x :: (grp ++ pad)) pre.length 0 (grp.length + 1) (by omega)]
    simp only [List.set]
    rw [show pre ++ (grp.length + 1) :: (grp ++ pad)
          = (pre ++ (grp.length + 1) :: grp) ++ pad by simp]
    rw [take_append' (pre ++ (grp.length + 1) :: grp) pad _ 0 (by simp; omega)]
    simp
  | cons b rest ih =>
    intro pre grp pad x hgrp hlen
    by_cases hb : b = 0
    · subst hb
      rw [cobsETail_cons_zero] at hlen ⊢
      have hlow := cobsETail_length_lower rest []
      simp only [List.length_append, List.length_cons, List.length_nil] at hlen hlow
      obtain ⟨p, pad', rfl⟩ : ∃ p pad', pad = p :: pad' := by
        cases pad with
        | nil => simp at hlen; omega
        | cons p pad' => exact ⟨p, pad', rfl⟩
      rw [enc_loop_zero]
      have harg :
          (pre ++ x :: (grp ++ p :: pad')).set pre.length (grp.length + 1)
            = (pre ++ (grp.length + 1) :: grp) ++ p :: ([] ++ pad') := by
        rw [set_append_right' pre (x :: (grp ++ p :: pad')) pre.length 0 (grp.length + 1)
              (by omega)]
        simp
      rw [harg]
      have := ih (pre ++ (grp.length + 1) :: grp) [] pad' p (by simp)
        (by
          simp only [List.length_nil, List.length_cons] at hlen ⊢
          omega)
      rw [show pre.length + 1 + grp.length = (pre ++ (grp.length + 1) :: grp).length by
            simp only [List.length_append, List.length_cons, List.length_nil]; try omega]
      rw [← List.append_assoc]
      exact this
    · -- nonzero byte: extend the current run
      have hlow := cobsETail_length_lower (b :: rest) grp
      obtain ⟨p, pad', rfl⟩ : ∃ p pad', pad = p :: pad' := by
        cases pad with
        | nil =>
          exfalso
          simp only [List.length_nil, List.length_cons] at hlen hlow
          omega
        | cons p pad' => exact ⟨p, pad', rfl⟩
      have hsetb :
          (pre ++ x :: (grp ++ p :: pad')).set (pre.length + 1 + grp.length) b
            = pre ++ x :: ((grp ++ [b]) ++ pad') := by
        rw [show pre ++ x :: (grp ++ p :: pad') = (pre ++ x :: grp) ++ p :: pad' by simp]
        rw [set_append_right' (pre ++ x :: grp) (p :: pad') (pre.length + 1 + grp.length) 0 b
              (by simp; omega)]
        simp
      by_cases h255 : grp.length + 1 + 1 = 0xFF
      · rw [enc_loop_ff b rest _ _ _ _ hb h255, hsetb]
        rw [cobsETail_cons_ff grp b rest hb (by omega)] at hlen ⊢
        have hlow2 := cobsETail_length_lower rest []
        simp only [List.length_append, List.length_cons, List.length_nil] at hlen hlow2
        obtain ⟨q, pad'', rfl⟩ : ∃ q pad'', pad' = q :: pad'' := by
          cases pad' with
          | nil => exfalso; simp at hlen; omega
          | cons q pad'' => exact ⟨q, pad'', rfl⟩
        have harg :
            (pre ++ x :: ((grp ++ [b]) ++ q :: pad'')).set pre.length (grp.length + 1 + 1)
              = (pre ++ (grp.length + 1 + 1) :: (grp ++ [b])) ++ q :: ([] ++ pad'') := by
          rw [set_append_right' pre (x :: ((grp ++ [b]) ++ q :: pad'')) pre.length 0
                (grp.length + 1 + 1) (by omega)]
          simp
        rw [harg]
        have := ih (pre ++ (grp.length + 1 + 1) :: (grp ++ [b])) [] pad'' q (by simp)
          (by
            simp only [List.length_nil, List.length_cons] at hlen ⊢
            omega)
        rw [show pre.length + 1 + grp.length + 2
              = (pre ++ (grp.length + 1 + 1) :: (grp ++ [b])).length + 1 by
            simp only [List.length_append, List.length_cons, List.length_nil]; try omega]
        rw [show pre.length + 1 + grp.length + 1
              = (pre ++ (grp.length + 1 + 1) :: (grp ++ [b])).length by
            simp only [List.length_append, List.length_cons, List.length_nil]; try omega]
        rw [show (0xFF : Nat) = grp.length + 1 + 1 by omega]
        rw [← List.append_assoc]
        exact this
      · rw [enc_loop_nz b rest _ _ _ _ hb h255, hsetb]
        rw [cobsETail_cons_nz grp b rest hb (by omega)] at hlen ⊢
        have := ih pre (grp ++ [b]) pad' x
          (by simp only [List.length_append, List.length_cons, List.length_nil]; omega)
          (by simp only [List.length_append, List.length_cons, List.length_nil] at hlen ⊢
              omega)
        rw [show pre.length + 1 + grp.length + 1 = pre.length + 1 + (grp ++ [b]).length by
              simp only [List.length_append, List.length_cons, List.length_nil]; try omega]
        rw [show grp.length + 1 + 1 = (grp ++ [b]).length + 1 by
              simp only [List.length_append, List.length_cons, List.length_nil]; try omega]
        exact this

/-- The imperative encoder computes exactly the run decomposition
`cobsETail [] data`. -/
theorem cobs_encode_eq (data : List Nat) : cobs_encode data = cobsETail [] data := by
  have hup := cobsETail_length_upper data []
  have h := enc_loop_spec data [] []
    (List.replicate (data.length + data.length / 254) 0) 0 (by simp)
    (by
      simp only [List.length_nil, List.length_replicate] at hup ⊢
      omega)
  simp only [List.nil_append, List.length_nil] at h
  unfold cobs_encode
  rw [show data.length + 1 + data.length / 254
        = (data.length + data.length / 254) + 1 by omega]
  rw [List.replicate_succ]
  exact h

/-- No output byte of the encoder is the frame delimiter `0x00`. -/
theorem cobsETail_ne_zero (rest : List Nat) :
    ∀ grp : List Nat, (∀ g ∈ grp, g ≠ 0) → ∀ b ∈ cobsETail grp rest, b ≠ 0 := by
  induction rest with
  | nil =>
    intro grp hgrp b hb
    rw [cobsETail_nil] at hb
    rcases hb with _ | hb
    · omega
    · exact hgrp b (by assumption)
  | cons a rest ih =>
    intro grp hgrp b hb
    by_cases ha : a = 0
    · subst ha
      rw [cobsETail_cons_zero] at hb
      rcases List.mem_append.mp hb with hb | hb
      · rcases hb with _ | hb
        · omega
        · exact hgrp b (by assumption)
      · exact ih [] (by simp) b hb
    · by_cases h255 : grp.length + 2 = 0xFF
      · rw [cobsETail_cons_ff grp a rest ha h255] at hb
        rcases List.mem_append.mp hb with hb | hb
        · rcases hb with _ | hb
          · omega
          · rcases List.mem_append.mp (by assumption) with hg | hg
            · exact hgrp b hg
            · simp only [List.mem_singleton] at hg; subst hg; exact ha
        · exact ih [] (by simp) b hb
      · rw [cobsETail_cons_nz grp a rest ha h255] at hb
        refine ih (grp ++ [a]) ?_ b hb
        intro g hg
        rcases List.mem_append.mp hg with hg | hg
        · exact hgrp g hg
        · simp only [List.mem_singleton] at hg; subst hg; exact ha

/-! ### A structural description of the decoder -/

/-- Recursive description of `cobs_decode`: the same traversal, building
the result by list concatenation instead of buffer writes; `none` is the
malformed-frame early return. -/
def cobsD : List Nat → Option (List Nat)
  | [] => some []
  | c :: rest =>
    if c > rest.length + 1 ∧ c ≠ 1 then
      none
    else
      match cobsD (rest.drop (c - 1)) with
      | none => none
      | some out =>
        some (rest.take (c - 1)
          ++ (if c ≠ 0xFF ∧ rest.drop (c - 1) ≠ [] then [0] else []) ++ out)
  termination_by l => l.length
  decreasing_by simp only [List.length_cons, List.length_drop]; omega

theorem cobsD_cons (c : Nat) (rest : List Nat) :
    cobsD (c :: rest) =
      if c > rest.length + 1 ∧ c ≠ 1 then
        none
      else
        match cobsD (rest.drop (c - 1)) with
        | none => none
        | some out =>
          some (rest.take (c - 1)
            ++ (if c ≠ 0xFF ∧ rest.drop (c - 1) ≠ [] then [0] else []) ++ out) := by
  conv_lhs => rw [cobsD]

theorem cobsD_length_le (n : Nat) :
    ∀ data : List Nat, data.length ≤ n →
      ∀ l, cobsD data = some l → l.length ≤ data.length := by
  induction n with
  | zero =>
    intro data hd l hl
    have : data = [] := List.eq_nil_of_length_eq_zero (by omega)
    subst this
    simp only [cobsD, Option.some.injEq] at hl
    subst hl
    simp
  | succ n ih =>
    intro data hd l hl
    match data with
    | [] =>
      simp only [cobsD, Option.some.injEq] at hl
      subst hl
      simp
    | c :: rest =>
      rw [cobsD_cons] at hl
      by_cases hg : c > rest.length + 1 ∧ c ≠ 1
      · rw [if_pos hg] at hl; cases hl
      · rw [if_neg hg] at hl
        cases hrec : cobsD (rest.drop (c - 1)) with
        | none => rw [hrec] at hl; cases hl
        | some out =>
          rw [hrec] at hl
          simp only [Option.some.injEq] at hl
          subst hl
          have hlen := ih (rest.drop (c - 1))
            (by simp only [List.length_drop, List.length_cons] at hd ⊢; omega)
            out hrec
          simp only [List.length_drop] at hlen
          by_cases hz : c ≠ 0xFF ∧ rest.drop (c - 1) ≠ []
          · rw [if_pos hz]
            have hlt : 0 < rest.length - (c - 1) := by
              rcases Nat.lt_or_ge (c - 1) rest.length with h | h
              · omega
              · exact absurd (List.drop_eq_nil_of_le h) hz.2
            simp only [List.length_append, List.length_take, List.length_cons,
              List.length_nil]
            omega
          · rw [if_neg hz]
            simp only [List.length_append, List.length_take, List.length_cons,
              List.length_nil]
            omega

theorem writeBytes_append (xs : List Nat) :
    ∀ (pre pad : List Nat), xs.length ≤ pad.length →
      writeBytes (pre ++ pad) pre.length xs = (pre ++ xs) ++ pad.drop xs.length := by
  induction xs with
  | nil => intro pre pad _; simp [writeBytes]
  | cons x xs ih =>
    intro pre pad hlen
    obtain ⟨p, pad0, rfl⟩ : ∃ p pad0, pad = p :: pad0 := by
      cases pad with
      | nil => simp at hlen
      | cons p pad0 => exact ⟨p, pad0, rfl⟩
    simp only [writeBytes]
    rw [set_append_right' pre (p :: pad0) pre.length 0 x (by omega)]
    simp only [List.set]
    rw [show pre ++ x :: pad0 = (pre ++ [x]) ++ pad0 by simp]
    rw [show pre.length + 1 = (pre ++ [x]).length by simp]
    rw [ih (pre ++ [x]) pad0 (by simp only [List.length_cons] at hlen; omega)]
    simp

/-- When `cobsD` fails, the imperative loop fails too, whatever the
buffer contents: the early return depends only on the input bytes. -/
theorem dec_loop_none (n : Nat) :
    ∀ data : List Nat, data.length ≤ n → cobsD data = none →
      ∀ (out : List Nat) (wi : Nat), cobs_decode_loop data out wi = none := by
  induction n with
  | zero =>
    intro data hd hnone out wi
    have : data = [] := List.eq_nil_of_length_eq_zero (by omega)
    subst this
    simp [cobsD] at hnone
  | succ n ih =>
    intro data hd hnone out wi
    match data with
    | [] => simp [cobsD] at hnone
    | c :: rest =>
      rw [cobsD_cons] at hnone
      by_cases hg : c > rest.length + 1 ∧ c ≠ 1
      · simp only [cobs_decode_loop, if_pos hg]
      · rw [if_neg hg] at hnone
        cases hrec : cobsD (rest.drop (c - 1)) with
        | some l => rw [hrec] at hnone; cases hnone
        | none =>
          have hrest : (rest.drop (c - 1)).length ≤ n := by
            simp only [List.length_drop, List.length_cons] at hd ⊢; omega
          simp only [cobs_decode_loop, if_neg hg]
          by_cases hz : c ≠ 0xFF ∧ rest.drop (c - 1) ≠ []
          · rw [if_pos hz]; exact ih _ hrest hrec _ _
          · rw [if_neg hz]; exact ih _ hrest hrec _ _

/-- When `cobsD` succeeds, the imperative loop writes exactly the decoded
bytes after `pre`, provided the tail of the buffer has room for them. -/
theorem dec_loop_some (n : Nat) :
    ∀ data : List Nat, data.length ≤ n →
    ∀ l : List Nat, cobsD data = some l →
    ∀ (pre pad : List Nat), l.length ≤ pad.length →
      cobs_decode_loop data (pre ++ pad) pre.length =
        some ((pre ++ l) ++ pad.drop l.length, pre.length + l.length) := by
  induction n with
  | zero =>
    intro data hd l hl pre pad hroom
    have : data = [] := List.eq_nil_of_length_eq_zero (by omega)
    subst this
    simp only [cobsD, Option.some.injEq] at hl
    subst hl
    simp [cobs_decode_loop]
  | succ n ih =>
    intro data hd l hl pre pad hroom
    match data with
    | [] =>
      simp only [cobsD, Option.some.injEq] at hl
      subst hl
      simp [cobs_decode_loop]
    | c :: rest =>
      rw [cobsD_cons] at hl
      by_cases hg : c > rest.length + 1 ∧ c ≠ 1
      · rw [if_pos hg] at hl; cases hl
      · rw [if_neg hg] at hl
        have hc1 : c - 1 ≤ rest.length := by omega
        have htk : (rest.take (c - 1)).length = c - 1 := by
          simp only [List.length_take]; omega
        have hrest : (rest.drop (c - 1)).length ≤ n := by
          simp only [List.length_drop, List.length_cons] at hd ⊢; omega
        cases hrec : cobsD (rest.drop (c - 1)) with
        | none => rw [hrec] at hl; cases hl
        | some out =>
          rw [hrec] at hl
          simp only [Option.some.injEq] at hl
          subst hl
          simp only [cobs_decode_loop, if_neg hg]
          rw [writeBytes_append (rest.take (c - 1)) pre pad
                (by
                  simp only [List.length_append, List.length_take] at hroom ⊢
                  omega)]
          rw [htk]
          by_cases hz : c ≠ 0xFF ∧ rest.drop (c - 1) ≠ []
          · simp only [if_pos hz] at hroom ⊢
            obtain ⟨q, pad2, hq⟩ : ∃ q pad2, pad.drop (c - 1) = q :: pad2 := by
              cases hpd : pad.drop (c - 1) with
              | nil =>
                exfalso
                have : pad.length ≤ c - 1 := by
                  have := congrArg List.length hpd
                  simp only [List.length_drop, List.length_nil] at this
                  omega
                simp only [List.length_append, List.length_cons] at hroom
                omega
              | cons q pad2 => exact ⟨q, pad2, rfl⟩
            rw [hq]
            rw [set_append_right' (pre ++ rest.take (c - 1)) (q :: pad2)
                  (pre.length + (c - 1)) 0 0 (by simp [htk])]
            simp only [List.set]
            rw [show (pre ++ rest.take (c - 1)) ++ 0 :: pad2
                  = ((pre ++ rest.take (c - 1)) ++ [0]) ++ pad2 by simp]
            have hwix : pre.length + (c - 1) + 1
                = ((pre ++ rest.take (c - 1)) ++ [0]).length := by
              simp only [List.length_append, List.length_cons, List.length_nil, htk]
              try omega
            rw [hwix]
            rw [ih (rest.drop (c - 1)) hrest out hrec ((pre ++ rest.take (c - 1)) ++ [0]) pad2
                  (by
                    have := congrArg List.length hq
                    simp only [List.length_drop, List.length_cons] at this
                    simp only [List.length_append, List.length_cons, List.length_nil,
                      List.length_take] at hroom ⊢
                    omega)]
            have hL : (rest.take (c - 1) ++ [0] ++ out).length
                = (c - 1) + (out.length + 1) := by
              simp only [List.length_append, List.length_cons, List.length_nil, htk]
              try omega
            have hdrop : pad.drop ((rest.take (c - 1) ++ [0] ++ out).length)
                = pad2.drop out.length := by
              rw [hL, ← List.drop_drop, hq, List.drop_succ_cons]
            rw [hdrop]
            simp only [Option.some.injEq, Prod.mk.injEq]
            constructor
            · simp
            · simp only [List.length_append, List.length_cons, List.length_nil,
                List.length_take]
              omega
          · simp only [if_neg hz] at hroom ⊢
            rw [show pre.length + (c - 1) = (pre ++ rest.take (c - 1)).length
                  by simp [htk]]
            rw [ih (rest.drop (c - 1)) hrest out hrec (pre ++ rest.take (c - 1))
                  (pad.drop (c - 1))
                  (by
                    simp only [List.length_append, List.length_nil, List.length_drop,
                      List.length_take] at hroom ⊢
                    omega)]
            have hL : (rest.take (c - 1) ++ [] ++ out).length
                = (c - 1) + out.length := by
              simp only [List.length_append, List.length_nil, htk]
              try omega
            have hdrop : pad.drop ((rest.take (c - 1) ++ [] ++ out).length)
                = (pad.drop (c - 1)).drop out.length := by
              rw [hL, ← List.drop_drop]
            rw [hdrop]
            simp only [Option.some.injEq, Prod.mk.injEq]
            constructor
            · simp
            · simp only [List.length_append, List.length_nil, List.length_take]
              omega

/-- `cobs_decode` agrees with the structural decoder `cobsD`
(empty output on failure). -/
theorem cobs_decode_eq (data : List Nat) :
    cobs_decode data = match cobsD data with | none => [] | some l => l := by
  unfold cobs_decode
  cases h : cobsD data with
  | none =>
    rw [dec_loop_none data.length data le_rfl h]
  | some l =>
    have hroom : l.length ≤ (List.replicate data.length (0 : Nat)).length := by
      have := cobsD_length_le data.length data le_rfl l h
      simpa using this
    have hloop := dec_loop_some data.length data le_rfl l h []
      (List.replicate data.length 0) hroom
    simp only [List.nil_append, List.length_nil] at hloop
    rw [hloop]
    show (l ++ (List.replicate data.length (0 : Nat)).drop l.length).take (0 + l.length) = l
    rw [take_append' l ((List.replicate data.length (0 : Nat)).drop l.length)
          (0 + l.length) 0 (by omega)]
    simp

/-- Decoding a run decomposition recovers the original bytes: the clean
round trip. -/
theorem cobsD_cobsETail (rest : List Nat) :
    ∀ grp : List Nat, grp.length ≤ 253 →
      cobsD (cobsETail grp rest) = some (grp ++ rest) := by
  induction rest with
  | nil =>
    intro grp hgrp
    rw [cobsETail_nil, cobsD_cons]
    rw [if_neg (by omega)]
    have htk : grp.take (grp.length + 1 - 1) = grp := by
      rw [show grp.length + 1 - 1 = grp.length by omega]
      exact List.take_length grp
    have hdp : grp.drop (grp.length + 1 - 1) = [] := by
      rw [show grp.length + 1 - 1 = grp.length by omega]
      exact List.drop_length grp
    rw [htk, hdp]
    simp [cobsD]
  | cons b rest ih =>
    intro grp hgrp
    by_cases hb : b = 0
    · subst hb
      rw [cobsETail_cons_zero, List.cons_append, cobsD_cons]
      have hlow := cobsETail_length_lower rest []
      simp only [List.length_nil] at hlow
      rw [if_neg (by
        simp only [List.length_append, List.length_cons]
        omega)]
      have htk : (grp ++ cobsETail [] rest).take (grp.length + 1 - 1) = grp := by
        rw [show grp.length + 1 - 1 = grp.length + 0 by omega]
        rw [take_append' grp (cobsETail [] rest) (grp.length + 0) 0 (by omega)]
        simp
      have hdp : (grp ++ cobsETail [] rest).drop (grp.length + 1 - 1) = cobsETail [] rest := by
        rw [show grp.length + 1 - 1 = grp.length by omega]
        simp
      rw [htk, hdp, ih [] (by simp)]
      rw [if_pos ⟨by omega, by
        intro hnil
        have := congrArg List.length hnil
        simp only [List.length_nil] at this
        omega⟩]
      simp
    · by_cases h255 : grp.length + 2 = 0xFF
      · rw [cobsETail_cons_ff grp b rest hb h255, List.cons_append, cobsD_cons]
        have hlow := cobsETail_length_lower rest []
        simp only [List.length_nil] at hlow
        rw [if_neg (by
          simp only [List.length_append, List.length_cons, List.length_nil]
          omega)]
        have htk : ((grp ++ [b]) ++ cobsETail [] rest).take (0xFF - 1) = grp ++ [b] := by
          rw [show (0xFF : Nat) - 1 = (grp ++ [b]).length + 0 by
            simp only [List.length_append, List.length_cons, List.length_nil]; omega]
          rw [take_append' (grp ++ [b]) (cobsETail [] rest) ((grp ++ [b]).length + 0) 0
                (by omega)]
          simp
        have hdp : ((grp ++ [b]) ++ cobsETail [] rest).drop (0xFF - 1) = cobsETail [] rest := by
          rw [show (0xFF : Nat) - 1 = (grp ++ [b]).length by
            simp only [List.length_append, List.length_cons, List.length_nil]; omega]
          simp
        rw [htk, hdp, ih [] (by simp)]
        rw [if_neg (by simp)]
        simp
      · rw [cobsETail_cons_nz grp b rest hb h255]
        rw [ih (grp ++ [b]) (by
          simp only [List.length_append, List.length_cons, List.length_nil]
          omega)]
        simp

/-- Round trip, as a helper usable by the frame layer. -/
theorem cobs_decode_encode (x : List Nat) : cobs_decode (cobs_encode x) = x := by
  rw [cobs_encode_eq, cobs_decode_eq, cobsD_cobsETail x [] (by simp)]
  simp

/-- Delimiter freedom, as a helper usable by the frame layer. -/
theorem cobs_encode_ne_zero (x : List Nat) : ∀ b ∈ cobs_encode x, b ≠ 0 := by
  rw [cobs_encode_eq]
  exact cobsETail_ne_zero x [] (by simp)

theorem cobs_encode_length_lower (x : List Nat) :
    x.length + 1 ≤ (cobs_encode x).length := by
  rw [cobs_encode_eq]
  have := cobsETail_length_lower x []
  simpa using this

/-- C1: For every finite byte sequence `x`,
`cobs_decode (cobs_encode x) = x`, and no byte of `cobs_encode x` equals
`0x00`. -/
theorem cobs_roundtrip (x : List Nat) (h : ∀ b ∈ x, b < 256) :
    cobs_decode (cobs_encode x) = x ∧ ∀ b ∈ cobs_encode x, b ≠ 0 :=
  ⟨cobs_decode_encode x, cobs_encode_ne_zero x⟩

/-- Witness for C1 at a concrete input. -/
theorem cobs_roundtrip_witness :
    (∀ b ∈ [1, 0, 2, 255, 0, 0, 3], b < 256) ∧
      (cobs_decode (cobs_encode [1, 0, 2, 255, 0, 0, 3]) = [1, 0, 2, 255, 0, 0, 3] ∧
        ∀ b ∈ cobs_encode [1, 0, 2, 255, 0, 0, 3], b ≠ 0) :=
  ⟨by decide, cobs_roundtrip [1, 0, 2, 255, 0, 0, 3] (by decide)⟩

/-! ### Bounds-checked decoder (for the memory-safety claim)

`cobs_decode_chk` is `cobs_decode` with every buffer write and every
input read guarded: a write outside the allocated `bytearray(len(data))`
(or of a value not fitting a byte), or a copy that would read past the
end of the input, yields `none` (a crash) instead of silently doing
nothing.  The outer `some`/`none` distinguishes a crash from the
legitimate malformed-frame early return (`some none` below). -/

def setChk (out : List Nat) (wi : Nat) (b : Nat) : Option (List Nat) :=
  if wi < out.length ∧ b < 256 then some (out.set wi b) else none

def writeBytesChk : List Nat → Nat → List Nat → Option (List Nat)
  | out, _, [] => some out
  | out, wi, b :: bs =>
    match setChk out wi b with
    | none => none
    | some out1 => writeBytesChk out1 (wi + 1) bs

def cobs_decode_loop_chk : List Nat → List Nat → Nat → Option (Option (List Nat × Nat))
  | [], out, wi => some (some (out, wi))
  | c :: rest, out, wi =>
    if c > rest.length + 1 ∧ c ≠ 1 then
      some none
    else
      if c - 1 ≤ rest.length then
        match writeBytesChk out wi (rest.take (c - 1)) with
        | none => none
        | some out1 =>
          if c ≠ 0xFF ∧ rest.drop (c - 1) ≠ [] then
            match setChk out1 (wi + (c - 1)) 0 with
            | none => none
            | some out2 => cobs_decode_loop_chk (rest.drop (c - 1)) out2 (wi + (c - 1) + 1)
          else
            cobs_decode_loop_chk (rest.drop (c - 1)) out1 (wi + (c - 1))
      else
        none
  termination_by data _ _ => data.length
  decreasing_by
    · simp only [List.length_cons, List.length_drop]; omega
    · simp only [List.length_cons, List.length_drop]; omega

def cobs_decode_chk (data : List Nat) : Option (List Nat) :=
  match cobs_decode_loop_chk data (List.replicate data.length 0) 0 with
  | none => none
  | some none => some []
  | some (some (out, wi)) => some (out.take wi)

theorem writeBytes_length (xs : List Nat) :
    ∀ (out : List Nat) (wi : Nat), (writeBytes out wi xs).length = out.length := by
  induction xs with
  | nil => intro out wi; rfl
  | cons b bs ih =>
    intro out wi
    simp only [writeBytes, ih, List.length_set]

theorem writeBytesChk_eq (xs : List Nat) :
    ∀ (out : List Nat) (wi : Nat), wi + xs.length ≤ out.length →
      (∀ b ∈ xs, b < 256) →
      writeBytesChk out wi xs = some (writeBytes out wi xs) := by
  induction xs with
  | nil => intro out wi _ _; rfl
  | cons b bs ih =>
    intro out wi hlen hbytes
    simp only [List.length_cons] at hlen
    have hset : setChk out wi b = some (out.set wi b) := by
      rw [setChk, if_pos ⟨by omega, hbytes b (by simp)⟩]
    simp only [writeBytesChk, writeBytes, hset]
    exact ih (out.set wi b) (wi + 1)
      (by simp only [List.length_set]; omega)
      (fun x hx => hbytes x (by simp [hx]))

theorem dec_loop_chk_eq (n : Nat) :
    ∀ data : List Nat, data.length ≤ n →
    ∀ (out : List Nat) (wi : Nat), wi + data.length ≤ out.length →
      (∀ b ∈ data, b < 256) →
      cobs_decode_loop_chk data out wi = some (cobs_decode_loop data out wi) := by
  induction n with
  | zero =>
    intro data hd out wi _ _
    have : data = [] := List.eq_nil_of_length_eq_zero (by omega)
    subst this
    simp [cobs_decode_loop_chk, cobs_decode_loop]
  | succ n ih =>
    intro data hd out wi hroom hbytes
    match data with
    | [] => simp [cobs_decode_loop_chk, cobs_decode_loop]
    | c :: rest =>
      simp only [List.length_cons] at hd hroom
      by_cases hg : c > rest.length + 1 ∧ c ≠ 1
      · simp only [cobs_decode_loop_chk, cobs_decode_loop, if_pos hg]
      · have hc1 : c - 1 ≤ rest.length := by omega
        have hwb : writeBytesChk out wi (rest.take (c - 1))
            = some (writeBytes out wi (rest.take (c - 1))) := by
          apply writeBytesChk_eq
          · simp only [List.length_take]; omega
          · intro b hb
            exact hbytes b (by simp [List.mem_of_mem_take hb])
        simp only [cobs_decode_loop_chk, cobs_decode_loop, if_neg hg, if_pos hc1, hwb]
        have hlen1 : (writeBytes out wi (rest.take (c - 1))).length = out.length :=
          writeBytes_length _ _ _
        have hrest : (rest.drop (c - 1)).length ≤ n := by
          simp only [List.length_drop]; omega
        have hbrest : ∀ b ∈ rest.drop (c - 1), b < 256 := by
          intro b hb
          exact hbytes b (by simp [List.mem_of_mem_drop hb])
        by_cases hz : c ≠ 0xFF ∧ rest.drop (c - 1) ≠ []
        · simp only [if_pos hz]
          have hlt : 0 < rest.length - (c - 1) := by
            rcases Nat.lt_or_ge (c - 1) rest.length with hlt | hge
            · omega
            · exact absurd (List.drop_eq_nil_of_le hge) hz.2
          have hset : setChk (writeBytes out wi (rest.take (c - 1))) (wi + (c - 1)) 0
              = some ((writeBytes out wi (rest.take (c - 1))).set (wi + (c - 1)) 0) := by
            rw [setChk, if_pos ⟨by omega, by omega⟩]
          simp only [hset]
          apply ih _ hrest
          · simp only [List.length_set, hlen1, List.length_drop]; omega
          · exact hbrest
        · simp only [if_neg hz]
          apply ih _ hrest
          · simp only [hlen1, List.length_drop]; omega
          · exact hbrest

/-- C10: `cobs_decode` is total and memory-safe on every byte input:
the bounds-checked interpreter performs no out-of-range read or write
and returns exactly the value `cobs_decode` computes (decoded bytes, or
the empty sequence on the malformed-frame early return). -/
theorem cobs_decode_total_safe (data : List Nat) (h : ∀ b ∈ data, b < 256) :
    cobs_decode_chk data = some (cobs_decode data) := by
  unfold cobs_decode_chk cobs_decode
  rw [dec_loop_chk_eq data.length data le_rfl (List.replicate data.length 0) 0
        (by simp) h]
  cases cobs_decode_loop data (List.replicate data.length 0) 0 with
  | none => rfl
  | some p => rfl

/-- Witness for C10 at concrete inputs, including a truncated frame, an
embedded zero, and a leading zero byte. -/
theorem cobs_decode_total_safe_witness :
    ((∀ b ∈ [5, 1, 2], b < 256) ∧ cobs_decode_chk [5, 1, 2] = some (cobs_decode [5, 1, 2]))
    ∧ ((∀ b ∈ [0, 3, 7], b < 256) ∧ cobs_decode_chk [0, 3, 7] = some (cobs_decode [0, 3, 7]))
    ∧ cobs_decode_chk [3, 1, 0, 2, 9] = some (cobs_decode [3, 1, 0, 2, 9]) :=
  ⟨⟨by decide, cobs_decode_total_safe [5, 1, 2] (by decide)⟩,
   ⟨by decide, cobs_decode_total_safe [0, 3, 7] (by decide)⟩,
   cobs_decode_total_safe [3, 1, 0, 2, 9] (by decide)⟩

/-! ## Serf frame layer, from `src/ccio/serf.py` -/

def SERF_CODE_PROTO_M : Nat := 0b11100000
def SERF_CODE_PROTO_VAL : Nat := 0b10100000
def SERF_CODE_M : Nat := 0b00011111

/-- `struct.pack "<H"`: two little-endian bytes. -/
def le16 (n : Nat) : List Nat := [n % 256, n / 256 % 256]

/-- `struct.pack "<I"`: four little-endian bytes. -/
def le32 (n : Nat) : List Nat :=
  [n % 256, n / 256 % 256, n / 65536 % 256, n / 16777216 % 256]

/-- `struct.pack "<Q"`: eight little-endian bytes. -/
def le64 (n : Nat) : List Nat := le32 (n % 4294967296) ++ le32 (n / 4294967296)

/-- `Serf.encode` (`src/ccio/serf.py`): warn-and-mask the code to its
low five bits, prepend a COBS-encoded size chunk `FF <u32 len>` plus
delimiter when the body is nonempty, then the COBS-encoded
`tag ++ body` chunk and the final delimiter. -/
def serf_encode (code : Nat) (data : List Nat) : List Nat :=
  let size := if data.length ≠ 0 then cobs_encode (0xFF :: le32 data.length) ++ [0] else []
  let frame := (SERF_CODE_PROTO_VAL ||| (code &&& SERF_CODE_M)) :: data
  size ++ (cobs_encode frame ++ [0])

/-- `Serf.decode` (`src/ccio/serf.py`): reject short input, COBS-decode,
reject an empty decode or a tag whose upper three bits are not `0b101`,
return (low five bits of the tag, rest).  `none` is
`Serf.SERF_DECODE_ERROR`. -/
def serf_decode (data : List Nat) : Option (Nat × List Nat) :=
  if data.length ≤ 1 then none
  else
    match cobs_decode data with
    | [] => none
    | code :: rest =>
      if (code &&& SERF_CODE_PROTO_M) ≠ SERF_CODE_PROTO_VAL then none
      else some (code &&& SERF_CODE_M, rest)

theorem tag_facts : ∀ m < 32,
    ((0b10100000 ||| m) &&& 0b11100000 = 0b10100000)
    ∧ ((0b10100000 ||| m) &&& 0b00011111 = m) := by decide

/-- C2 (counterexample): for a nonempty body the encoder's output is not
`cobs(tag :: body) ++ [0]` — it carries an extra length-prefix chunk and
a second delimiter — and stripping the trailing `0x00` from the full
output and frame-decoding it fails. -/
theorem serf_encode_not_single_chunk :
    serf_encode 0 [1]
        ≠ cobs_encode ((SERF_CODE_PROTO_VAL ||| (0 &&& SERF_CODE_M)) :: [1]) ++ [0]
      ∧ serf_decode ((serf_encode 0 [1]).dropLast) = none := by
  refine ⟨by decide, ?_⟩
  simp [serf_decode, serf_encode, cobs_encode, cobs_encode_loop, encFinish,
    cobs_decode, cobs_decode_loop, writeBytes, le32,
    SERF_CODE_PROTO_VAL, SERF_CODE_PROTO_M, SERF_CODE_M]
  decide

/-- C2 (amended): the encoder emits
`[size chunk ++ 0x00 when body nonempty] ++ cobs(tag :: body) ++ 0x00`
with `tag = 0b101_00000 ||| (code &&& 31)` (so any code is masked
deterministically to its low five bits), and frame-decoding the data
chunk returns `(code &&& 31, body)` — in particular `(code, body)` for
`code ∈ 0..31`. -/
theorem serf_frame_roundtrip (code : Nat) (body : List Nat) :
    serf_encode code body
      = (if body.length ≠ 0 then cobs_encode (0xFF :: le32 body.length) ++ [0] else [])
          ++ (cobs_encode ((SERF_CODE_PROTO_VAL ||| (code &&& SERF_CODE_M)) :: body) ++ [0])
    ∧ serf_decode (cobs_encode ((SERF_CODE_PROTO_VAL ||| (code &&& SERF_CODE_M)) :: body))
        = some (code &&& SERF_CODE_M, body) := by
  constructor
  · rfl
  · have hm : code &&& SERF_CODE_M < 32 := by
      have h31 : code &&& SERF_CODE_M ≤ 31 := Nat.and_le_right
      omega
    have hfacts := tag_facts (code &&& SERF_CODE_M) hm
    have hlen := cobs_encode_length_lower
      ((SERF_CODE_PROTO_VAL ||| (code &&& SERF_CODE_M)) :: body)
    simp only [List.length_cons] at hlen
    unfold serf_decode
    rw [if_neg (by omega)]
    rw [cobs_decode_encode]
    show (if ((SERF_CODE_PROTO_VAL ||| (code &&& SERF_CODE_M)) &&& SERF_CODE_PROTO_M
            ≠ SERF_CODE_PROTO_VAL) then none
          else some ((SERF_CODE_PROTO_VAL ||| (code &&& SERF_CODE_M)) &&& SERF_CODE_M, body))
        = some (code &&& SERF_CODE_M, body)
    rw [if_neg (fun h => h hfacts.1)]
    exact congrArg (fun m => some (m, body)) hfacts.2

/-! ## Command registry (`Serf.add`, `src/ccio/serf.py` lines 40-68) -/

/-- What `io.<name>` is bound to after `Serf.add`.  `writer` is the
fire-and-forget lambda enqueuing `self._write(code, encode(...))`;
`write_wait passive` is the `WaitSync` rendezvous `write_wait`, where
`passive = true` records that the command has no request code, so the
rendezvous writer is the no-op lambda and a passive daemon thread
consumes its queue calling the handler. -/
inductive IoEntry
  | writer
  | write_wait (passive : Bool)
deriving DecidableEq

structure SerfCmd where
  name : String
  code : Option Nat
  response : Option Nat
  multi : Bool
deriving DecidableEq

structure SerfReg where
  cmds : List SerfCmd
  io : String → Option IoEntry

/-- `Serf.add`: record the command, and bind `io[name]` — to the plain
writer when `response is None`, otherwise to the rendezvous
`write_wait` (with a no-op writer when `code is None`). -/
def serf_add (r : SerfReg) (name : String) (code response : Option Nat)
    (multi : Bool) : SerfReg :=
  { cmds := r.cmds ++ [⟨name, code, response, multi⟩],
    io := fun n =>
      if n = name then
        some (match response with
          | none => IoEntry.writer
          | some _ => IoEntry.write_wait code.isNone)
      else r.io n }

def serf_empty : SerfReg := { cmds := [], io := fun _ => none }

/-- C9 (counterexample): registering a pure receiver (response set, no
request code) — e.g. `recv` with response code 6 — DOES put an entry in
the `io` map, contrary to the claim that no `io.<name>` callable exists. -/
theorem serf_add_receiver_io_present :
    (serf_add serf_empty "recv" none (some 6) false).io "recv"
      = some (IoEntry.write_wait true) := by
  simp [serf_add, serf_empty]

/-- C9 (amended): for every command registered with a response code and
no request code, `io.<name>` IS exposed, bound to the rendezvous
`write_wait` whose writer is a no-op (`passive = true`): the entry never
writes a frame, and its handler is driven by the passive wait thread for
every matching frame. -/
theorem serf_add_receiver_entry (r : SerfReg) (name : String) (c : Nat)
    (multi : Bool) :
    (serf_add r name none (some c) multi).io name
      = some (IoEntry.write_wait true) := by
  simp [serf_add]

/-! ## Multi-reply rendezvous (`WaitSync.write_wait_multi`,
`src/ccio/serf.py` lines 283-291) and the `trxn` decoder
(`src/ccio/cloudchaser.py` `decode_trxn_stat`). -/

/-- `WaitSync.write_wait_multi`, viewed on the stream of decoded values
the dispatcher pushes into the rendezvous queue: yield `handle item`
(the default `handle_noop`, identity, for `trxn`) for each non-`None`
item and stop at the first `None`. -/
def write_wait_multi {α : Type} : List (Option α) → List α
  | [] => []
  | none :: _ => []
  | some x :: rest => x :: write_wait_multi rest

/-- `decode_trxn_stat`: unpack `<HHB`, return `None` when the peer
address is zero (the end-of-batch terminator) else `(addr, payload)`.
The outer `Option` is the `struct.error` on a too-short body. -/
def decode_trxn_stat (data : List Nat) : Option (Option (Nat × List Nat)) :=
  match data with
  | a0 :: a1 :: _p0 :: _p1 :: _t :: rest =>
    some (if a0 + 256 * a1 = 0 then none else some (a0 + 256 * a1, rest))
  | _ => none

/-- A well-formed `trxn` reply body: `addr(u16) port(u16) type(u8) payload`. -/
def mkTrxnReply (addr port typ : Nat) (payload : List Nat) : List Nat :=
  le16 addr ++ le16 port ++ [typ % 256] ++ payload

theorem decode_trxn_mk (a p t : Nat) (pl : List Nat) (ha : a < 65536) :
    (decode_trxn_stat (mkTrxnReply a p t pl)).join
      = if a = 0 then none else some (a, pl) := by
  simp only [mkTrxnReply, le16, List.cons_append, List.nil_append, decode_trxn_stat]
  rw [show a % 256 + 256 * (a / 256 % 256) = a by omega]
  by_cases h0 : a = 0 <;> simp [h0, Option.join]

/-- C4: a `trxn` reply stream of `M` non-terminator replies (nonzero
peer address) followed by the `addr = 0` terminator yields exactly the
`M` decoded `(addr, payload)` pairs in arrival order, and the iterator
then ends; the terminator is never yielded. -/
theorem trxn_multi_termination (replies : List (Nat × Nat × Nat × List Nat))
    (port typ : Nat)
    (h : ∀ r ∈ replies, r.1 ≠ 0 ∧ r.1 < 65536) :
    write_wait_multi
        (((replies.map fun r => mkTrxnReply r.1 r.2.1 r.2.2.1 r.2.2.2)
            ++ [mkTrxnReply 0 port typ []]).map
          fun b => (decode_trxn_stat b).join)
      = replies.map fun r => (r.1, r.2.2.2) := by
  induction replies with
  | nil =>
    simp only [List.map_nil, List.nil_append, List.map_cons, List.map_nil]
    rw [decode_trxn_mk 0 port typ [] (by omega)]
    simp [write_wait_multi]
  | cons r rs ih =>
    have hr := h r (by simp)
    simp only [List.map_cons, List.cons_append, List.map_cons]
    rw [decode_trxn_mk r.1 r.2.1 r.2.2.1 r.2.2.2 hr.2]
    rw [if_neg hr.1]
    simp only [write_wait_multi]
    rw [ih (fun x hx => h x (by simp [hx]))]

/-- Witness for C4 at a concrete two-reply stream. -/
theorem trxn_multi_termination_witness :
    (∀ r ∈ [(1, 2, 3, [7]), (300, 0, 0, ([] : List Nat))], r.1 ≠ 0 ∧ r.1 < 65536)
    ∧ write_wait_multi
        ((([(1, 2, 3, [7]), (300, 0, 0, ([] : List Nat))].map
            fun r => mkTrxnReply r.1 r.2.1 r.2.2.1 r.2.2.2)
            ++ [mkTrxnReply 0 9 1 []]).map
          fun b => (decode_trxn_stat b).join)
      = [(1, [7]), (300, ([] : List Nat))] :=
  ⟨by decide,
   trxn_multi_termination [(1, 2, 3, [7]), (300, 0, 0, ([] : List Nat))] 9 1 (by decide)⟩

/-! ## `encode_send`, from `src/ccio/cloudchaser.py` lines 205-225 -/

def NET_ADDR_MASK : Nat := 0xFFFF
def NET_PORT_MASK : Nat := 0b1111111111
def NET_TYPE_MASK : Nat := 0b1111

/-- `encode_send`: raise `ValueError` (here `none`) when `port` or `typ`
has bits outside `NET_PORT_MASK` — note the source checks BOTH against
the 10-bit port mask — then pack `<HHBB` (no wait) or `<HHBI` (wait),
masking each field. -/
def encode_send (addr port typ : Nat) (data : List Nat) (mesg : Bool)
    (wait : Option Nat) (rslt : Bool) : Option (List Nat) :=
  if (port &&& NET_PORT_MASK) ≠ port then none
  else if (typ &&& NET_PORT_MASK) ≠ typ then none
  else some (
    match wait with
    | none =>
      le16 (addr &&& NET_ADDR_MASK) ++ le16 (port &&& NET_PORT_MASK)
        ++ [typ &&& NET_TYPE_MASK]
        ++ [(if rslt then 0b10 else 0) ||| (if mesg then 0b01 else 0)]
        ++ data
    | some w =>
      le16 (addr &&& NET_ADDR_MASK) ++ le16 (port &&& NET_PORT_MASK)
        ++ [typ &&& NET_TYPE_MASK] ++ le32 (w &&& 0xFFFFFFFF) ++ data)

/-- C3 (code bug): `typ = 16` does not fit 4 bits, yet `encode_send`
raises nothing and produces a frame — with the type field silently
masked to `16 &&& 0b1111 = 0`.  The source checks
`typ & NET_PORT_MASK != typ` (the 10-bit port mask) where the spec — and
the earlier revision of this file under `src/python/ccio/ccio/` —
require the 4-bit `NET_TYPE_MASK` check. -/
theorem encode_send_typ_mask_bug :
    encode_send 0 0 16 [] false none false = some [0, 0, 0, 0, 0, 0]
    ∧ encode_send 0 0 1024 [] false none false = none := by
  constructor
  · simp [encode_send, le16, NET_ADDR_MASK, NET_PORT_MASK, NET_TYPE_MASK]
    decide
  · simp [encode_send, NET_PORT_MASK]

/-! ## `AsyncQ`, from `src/ccio/asyncq.py`

State is the queue list; the two semaphores are determined by it in the
single-threaded view (`__sync` counts the queued items, `__prod` the
free capacity), so `acquire(timeout)` with no concurrent releaser
succeeds exactly when the respective count is positive. -/

/-- `AsyncQ.send` in bounded (`__send_prod`) mode: acquire the capacity
semaphore (succeeds iff the queue is below capacity), then append. -/
def asyncq_send_prod {α : Type} (size : Nat) (q : List α) (item : α) :
    List α × Bool :=
  if q.length < size then (q ++ [item], true) else (q, false)

/-- One `recv(once=True, timeout=0)` step: acquire `__sync` (succeeds
iff the queue is nonempty) and pop the head. -/
def asyncq_recv_once {α : Type} (q : List α) : List α × Option α :=
  match q with
  | [] => ([], none)
  | x :: rest => (rest, some x)

/-- `AsyncQ.push`: try `send`; on failure pop one item from the head and
retry the `send` once. -/
def asyncq_push {α : Type} (size : Nat) (q : List α) (item : α) :
    List α × Bool :=
  match asyncq_send_prod size q item with
  | (q1, true) => (q1, true)
  | (q1, false) =>
    match asyncq_recv_once q1 with
    | (q2, _) => asyncq_send_prod size q2 item

/-- C5: for a bounded queue of capacity `size > 0`, any sequence of
pushes keeps the length within `size`, and a push at capacity drops
exactly the oldest item, appends the new one at the tail (preserving
FIFO order of the survivors) and reports success. -/
theorem asyncq_push_spec (α : Type) (size : Nat) (items : List α)
    (q : List α) (it : α) (hs : 0 < size) (hq : q.length ≤ size) :
    ((items.foldl (fun s i => (asyncq_push size s i).1) q).length ≤ size)
    ∧ (q.length = size → asyncq_push size q it = (q.tail ++ [it], true)) := by
  constructor
  · induction items generalizing q with
    | nil => exact hq
    | cons i is ih =>
      simp only [List.foldl_cons]
      apply ih
      unfold asyncq_push asyncq_send_prod asyncq_recv_once
      by_cases h1 : q.length < size
      · simp only [if_pos h1, List.length_append, List.length_cons, List.length_nil]
        omega
      · have hlen : q.length = size := by omega
        obtain ⟨x, rest, rfl⟩ : ∃ x rest, q = x :: rest := by
          cases q with
          | nil => simp only [List.length_nil] at hlen; omega
          | cons x rest => exact ⟨x, rest, rfl⟩
        simp only [List.length_cons] at hlen
        simp only [if_neg h1]
        rw [if_pos (by omega)]
        simp only [List.length_append, List.length_cons, List.length_nil]
        omega
  · intro hfull
    obtain ⟨x, rest, rfl⟩ : ∃ x rest, q = x :: rest := by
      cases q with
      | nil => simp only [List.length_nil] at hfull; omega
      | cons x rest => exact ⟨x, rest, rfl⟩
    simp only [List.length_cons] at hfull
    unfold asyncq_push asyncq_send_prod asyncq_recv_once
    rw [if_neg (by simp only [List.length_cons]; omega)]
    simp only [List.tail_cons]
    rw [if_pos (by omega)]

/-- Witness for C5: a capacity-2 queue at capacity. -/
theorem asyncq_push_spec_witness :
    (([3, 4, 5].foldl (fun s i => (asyncq_push 2 s i).1) [1, 2]).length ≤ 2)
    ∧ asyncq_push 2 [1, 2] 9 = ([2, 9], true) :=
  ⟨(asyncq_push_spec Nat 2 [3, 4, 5] [1, 2] 9 (by decide) (by decide)).1,
   (asyncq_push_spec Nat 2 [3, 4, 5] [1, 2] 9 (by decide) (by decide)).2 rfl⟩

/-! ## `decode_peer`, from `src/ccio/cloudchaser.py` lines 304-321 -/

/-- `struct.unpack "<b"`: a signed byte. -/
def i8 (b : Nat) : Int := if b < 128 then (b : Int) else (b : Int) - 256

structure PeerRec where
  addr : Nat
  rssi : Int
  lqi : Nat
  last : Nat
  version : Nat
  date : Nat
  time : Nat
deriving DecidableEq

/-- `struct.unpack "<I"` of four bytes. -/
def u32v (b0 b1 b2 b3 : Nat) : Nat := b0 + 256 * b1 + 65536 * b2 + 16777216 * b3

/-- The `while len(data) >= 20` loop of `decode_peer`.  Crucially the
source reuses the variable `addr` for each record, so the accumulator
returned first is the `addr` left by the LAST record (or the header
`addr` when there are no records). -/
def decode_peer_loop : List Nat → Nat → Nat × List PeerRec
  | a0 :: a1 :: r :: l :: l0 :: l1 :: l2 :: l3 :: v0 :: v1 :: v2 :: v3
      :: d0 :: d1 :: d2 :: d3 :: t0 :: t1 :: t2 :: t3 :: rest, _addr =>
    let a := a0 + 256 * a1
    let peer : PeerRec :=
      { addr := a, rssi := i8 r, lqi := l,
        last := u32v l0 l1 l2 l3, version := u32v v0 v1 v2 v3,
        date := u32v d0 d1 d2 d3, time := u32v t0 t1 t2 t3 }
    match decode_peer_loop rest a with
    | (addr', ps) => (addr', peer :: ps)
  | _, addr => (addr, [])

/-- `decode_peer`: unpack the header `addr(u16) now(u32)`, run the
record loop, and return `adict(node=addr, time=now, peers=peers)` where
`addr` is whatever the loop left in the (reused) variable. -/
def decode_peer (data : List Nat) : Option (Nat × Nat × List PeerRec) :=
  match data with
  | a0 :: a1 :: n0 :: n1 :: n2 :: n3 :: rest =>
    match decode_peer_loop rest (a0 + 256 * a1) with
    | (addr', peers) => some (addr', u32v n0 n1 n2 n3, peers)
  | _ => none

/-- C6 (code bug): a reply with leading `addr = 1` and one peer record
whose own `addr = 2` decodes to `node = 2`, not the leading `1`: the
loop clobbers the header variable, so the claim fails whenever at least
one record is present (the record fields themselves decode as the spec
says). -/
theorem decode_peer_node_clobbered :
    decode_peer ([1, 0] ++ [100, 0, 0, 0]
        ++ ([2, 0] ++ [5] ++ [7] ++ [9, 0, 0, 0] ++ [1, 0, 0, 0]
            ++ [2, 0, 0, 0] ++ [3, 0, 0, 0]))
      = some (2, 100,
          [{ addr := 2, rssi := 5, lqi := 7, last := 9,
             version := 1, date := 2, time := 3 }]) := by
  decide

/-! ## CCRF status caching, from `src/ccio/ccrf.py` -/

/-- The cache slice of `CCRF` state: `__status_last`, `__addr`,
`__cell`.  The status object is abstracted to the `(addr, cell)` pair
the cache reads from it. -/
structure CCRFCache where
  status_last : Option (Nat × Nat)
  addr_c : Option Nat
  cell_c : Option Nat
deriving DecidableEq

/-- `CCRF.__load_status`: query the device — whose current
`(addr, cell)` is `dev` — and fill all three cache fields. -/
def ccrf_load_status (dev : Nat × Nat) (_s : CCRFCache) : CCRFCache :=
  { status_last := some dev, addr_c := some dev.1, cell_c := some dev.2 }

/-- `CCRF.__clear_status`, verbatim from the source: resets
`__status_last` and `__addr` — and does NOT touch `__cell`. -/
def ccrf_clear_status (s : CCRFCache) : CCRFCache :=
  { s with status_last := none, addr_c := none }

/-- Python truthiness of an optional number (`if not self.__addr`). -/
def pyTruthy : Option Nat → Bool
  | none => false
  | some n => n != 0

/-- `CCRF.addr`: reload the status when the cached `__addr` is falsy,
then return `__addr`. -/
def ccrf_addr (dev : Nat × Nat) (s : CCRFCache) : Option Nat × CCRFCache :=
  if pyTruthy s.addr_c then (s.addr_c, s)
  else
    ((ccrf_load_status dev s).addr_c, ccrf_load_status dev s)

/-- `CCRF.cell`: reload the status when the cached `__cell` is falsy,
then return `__cell`. -/
def ccrf_cell (dev : Nat × Nat) (s : CCRFCache) : Option Nat × CCRFCache :=
  if pyTruthy s.cell_c then (s.cell_c, s)
  else
    ((ccrf_load_status dev s).cell_c, ccrf_load_status dev s)

/-- The cache effect of `CCRF.cell_set` (after `io.config_cell`). -/
def ccrf_cell_set (s : CCRFCache) : CCRFCache := ccrf_clear_status s

/-- The cache effect of `CCRF.addr_set` (after `io.config_addr`). -/
def ccrf_addr_set (s : CCRFCache) : CCRFCache := ccrf_clear_status s

/-- The cache effect of `CCRF.close`. -/
def ccrf_close (s : CCRFCache) : CCRFCache := ccrf_clear_status s

/-- C8 (code bug): load status while the device is at `(addr 1, cell 5)`,
mutate with `cell_set`, and let the device change to `(2, 6)`.  The next
`cell()` returns the stale cached `5` without reloading (the claim
requires a reload yielding `6`), while `addr()` does reload and returns
`2`: `__clear_status` forgets to reset `__cell`.  The same
`__clear_status` is what `addr_set` and `close` run. -/
theorem ccrf_cell_cache_stale :
    ((ccrf_cell (2, 6) (ccrf_cell_set
        (ccrf_load_status (1, 5) ⟨none, none, none⟩))).1 = some 5)
    ∧ ((ccrf_addr (2, 6) (ccrf_cell_set
        (ccrf_load_status (1, 5) ⟨none, none, none⟩))).1 = some 2)
    ∧ ccrf_cell_set (ccrf_load_status (1, 5) ⟨none, none, none⟩)
        = ccrf_addr_set (ccrf_load_status (1, 5) ⟨none, none, none⟩)
    ∧ ccrf_cell_set (ccrf_load_status (1, 5) ⟨none, none, none⟩)
        = ccrf_close (ccrf_load_status (1, 5) ⟨none, none, none⟩) := by
  decide

/-! ## `decode_status`, from `src/ccio/cloudchaser.py` lines 129-171 -/

def PHY_CHAN_COUNT : Nat := 25

structure StatTriple where
  count : Nat
  size : Nat
  error : Nat
deriving DecidableEq

structure StatSet where
  recv : StatTriple
  send : StatTriple
deriving DecidableEq

structure ChanInfo where
  id : Nat
  id_hop : Nat
  freq : Nat
  rssi : Int
  rssi_prev : Int
deriving DecidableEq

structure Status where
  version : Nat
  date : Nat
  serial : Nat
  uptime : Nat
  addr : Nat
  cell : Nat
  rdid : Nat
  phy_su : Nat
  mac_su_rx : Nat
  heap_free : Nat
  heap_usage : Nat
  phy_stat : StatSet
  mac_stat : StatSet
  net_stat : StatSet
  chan : List ChanInfo
deriving DecidableEq

/-- `struct.unpack "<Q"` of eight bytes. -/
def u64v (b0 b1 b2 b3 b4 b5 b6 b7 : Nat) : Nat :=
  b0 + 256 * b1 + 65536 * b2 + 16777216 * b3 + 4294967296 * b4
    + 1099511627776 * b5 + 281474976710656 * b6 + 72057594037927936 * b7

/-- `decode_status_set`: two `<III` unpacks, recv then send. -/
def decode_status_set : List Nat → Option (StatSet × List Nat)
  | rc0 :: rc1 :: rc2 :: rc3 :: rs0 :: rs1 :: rs2 :: rs3 :: re0 :: re1 :: re2 :: re3
      :: sc0 :: sc1 :: sc2 :: sc3 :: ss0 :: ss1 :: ss2 :: ss3 :: se0 :: se1 :: se2 :: se3
      :: rest =>
    some ({ recv := { count := u32v rc0 rc1 rc2 rc3, size := u32v rs0 rs1 rs2 rs3,
                      error := u32v re0 re1 re2 re3 },
            send := { count := u32v sc0 sc1 sc2 sc3, size := u32v ss0 ss1 ss2 ss3,
                      error := u32v se0 se1 se2 se3 } }, rest)
  | _ => none

/-- The `for chan_id in range(PHY_CHAN_COUNT)` loop: each record is an
`<IHbb` unpack; the running index becomes the record id. -/
def decode_chan_loop : Nat → Nat → List Nat → Option (List ChanInfo × List Nat)
  | 0, _, data => some ([], data)
  | n + 1, idx, f0 :: f1 :: f2 :: f3 :: h0 :: h1 :: r0 :: r1 :: rest =>
    match decode_chan_loop n (idx + 1) rest with
    | none => none
    | some (cs, rest') =>
      some ({ id := idx, id_hop := h0 + 256 * h1, freq := u32v f0 f1 f2 f3,
              rssi := i8 r0, rssi_prev := i8 r1 } :: cs, rest')
  | _ + 1, _, _ => none

/-- `decode_status`: the `<IIQIHBBIIII` header unpack, three stat-sets,
then `PHY_CHAN_COUNT` channel records.  `none` is the `struct.error` on
a malformed body; leftover bytes after the channel records are ignored
as in the source. -/
def decode_status (data : List Nat) : Option Status :=
  match data with
  | v0 :: v1 :: v2 :: v3 :: d0 :: d1 :: d2 :: d3
      :: s0 :: s1 :: s2 :: s3 :: s4 :: s5 :: s6 :: s7
      :: u0 :: u1 :: u2 :: u3 :: a0 :: a1 :: cell :: rdid
      :: p0 :: p1 :: p2 :: p3 :: m0 :: m1 :: m2 :: m3
      :: hf0 :: hf1 :: hf2 :: hf3 :: hu0 :: hu1 :: hu2 :: hu3 :: rest =>
    match decode_status_set rest with
    | none => none
    | some (phy_stat, rest) =>
      match decode_status_set rest with
      | none => none
      | some (mac_stat, rest) =>
        match decode_status_set rest with
        | none => none
        | some (net_stat, rest) =>
          match decode_chan_loop PHY_CHAN_COUNT 0 rest with
          | none => none
          | some (chan, _) =>
            some { version := u32v v0 v1 v2 v3, date := u32v d0 d1 d2 d3,
                   serial := u64v s0 s1 s2 s3 s4 s5 s6 s7,
                   uptime := u32v u0 u1 u2 u3, addr := a0 + 256 * a1,
                   cell := cell, rdid := rdid,
                   phy_su := u32v p0 p1 p2 p3, mac_su_rx := u32v m0 m1 m2 m3,
                   heap_free := u32v hf0 hf1 hf2 hf3,
                   heap_usage := u32v hu0 hu1 hu2 hu3,
                   phy_stat := phy_stat, mac_stat := mac_stat,
                   net_stat := net_stat, chan := chan }
  | _ => none

/-! ### Assembling a status body from given field values (spec layout) -/

/-- `struct.pack "<b"`: a signed byte. -/
def i8enc (v : Int) : Nat := (v % 256).toNat

def mkTriple (t : StatTriple) : List Nat := le32 t.count ++ le32 t.size ++ le32 t.error

def mkStatSet (ss : StatSet) : List Nat := mkTriple ss.recv ++ mkTriple ss.send

def mkChan (c : ChanInfo) : List Nat :=
  le32 c.freq ++ le16 c.id_hop ++ [i8enc c.rssi, i8enc c.rssi_prev]

def mkStatusBody (s : Status) : List Nat :=
  le32 s.version ++ le32 s.date ++ le64 s.serial ++ le32 s.uptime ++ le16 s.addr
    ++ [s.cell % 256, s.rdid % 256]
    ++ le32 s.phy_su ++ le32 s.mac_su_rx ++ le32 s.heap_free ++ le32 s.heap_usage
    ++ mkStatSet s.phy_stat ++ mkStatSet s.mac_stat ++ mkStatSet s.net_stat
    ++ (s.chan.map mkChan).flatten

def StatTriple.wf (t : StatTriple) : Prop :=
  t.count < 4294967296 ∧ t.size < 4294967296 ∧ t.error < 4294967296

def StatSet.wf (ss : StatSet) : Prop := ss.recv.wf ∧ ss.send.wf

def chanListWf : List ChanInfo → Nat → Prop
  | [], _ => True
  | c :: cs, idx =>
    (c.id = idx ∧ c.id_hop < 65536 ∧ c.freq < 4294967296
      ∧ -128 ≤ c.rssi ∧ c.rssi < 128 ∧ -128 ≤ c.rssi_prev ∧ c.rssi_prev < 128)
    ∧ chanListWf cs (idx + 1)

def Status.wf (s : Status) : Prop :=
  s.version < 4294967296 ∧ s.date < 4294967296 ∧ s.serial < 18446744073709551616
    ∧ s.uptime < 4294967296 ∧ s.addr < 65536 ∧ s.cell < 256 ∧ s.rdid < 256
    ∧ s.phy_su < 4294967296 ∧ s.mac_su_rx < 4294967296
    ∧ s.heap_free < 4294967296 ∧ s.heap_usage < 4294967296
    ∧ s.phy_stat.wf ∧ s.mac_stat.wf ∧ s.net_stat.wf
    ∧ s.chan.length = PHY_CHAN_COUNT ∧ chanListWf s.chan 0

theorem u32v_le32 (x : Nat) (h : x < 4294967296) :
    u32v (x % 256) (x / 256 % 256) (x / 65536 % 256) (x / 16777216 % 256) = x := by
  unfold u32v
  omega

theorem i8_i8enc (v : Int) (h1 : -128 ≤ v) (h2 : v < 128) : i8 (i8enc v) = v := by
  simp only [i8, i8enc]
  split <;> omega

theorem u64v_le64 (x : Nat) (h : x < 18446744073709551616) :
    u64v (x % 4294967296 % 256) (x % 4294967296 / 256 % 256)
      (x % 4294967296 / 65536 % 256) (x % 4294967296 / 16777216 % 256)
      (x / 4294967296 % 256) (x / 4294967296 / 256 % 256)
      (x / 4294967296 / 65536 % 256) (x / 4294967296 / 16777216 % 256) = x := by
  unfold u64v
  omega

theorem decode_status_set_mk (ss : StatSet) (rest : List Nat) (h : ss.wf) :
    decode_status_set (mkStatSet ss ++ rest) = some (ss, rest) := by
  simp only [mkStatSet, mkTriple, le32, List.cons_append, List.nil_append,
    decode_status_set]
  rw [u32v_le32 ss.recv.count h.1.1, u32v_le32 ss.recv.size h.1.2.1,
    u32v_le32 ss.recv.error h.1.2.2, u32v_le32 ss.send.count h.2.1,
    u32v_le32 ss.send.size h.2.2.1, u32v_le32 ss.send.error h.2.2.2]

theorem decode_chan_loop_mk (cs : List ChanInfo) :
    ∀ (idx : Nat) (rest : List Nat), chanListWf cs idx →
      decode_chan_loop cs.length idx ((cs.map mkChan).flatten ++ rest)
        = some (cs, rest) := by
  induction cs with
  | nil => intro idx rest _; simp [decode_chan_loop]
  | cons c cs ih =>
    intro idx rest h
    simp only [chanListWf] at h
    simp only [List.map_cons, List.flatten_cons, mkChan, le32, le16,
      List.cons_append, List.nil_append, List.append_assoc, List.length_cons]
    simp only [decode_chan_loop]
    rw [ih (idx + 1) rest h.2]
    rw [u32v_le32 c.freq h.1.2.2.1,
      show c.id_hop % 256 + 256 * (c.id_hop / 256 % 256) = c.id_hop from by
        have := h.1.2.1; omega,
      i8_i8enc c.rssi h.1.2.2.2.1 h.1.2.2.2.2.1,
      i8_i8enc c.rssi_prev h.1.2.2.2.2.2.1 h.1.2.2.2.2.2.2,
      ← h.1.1]

/-- C7: decoding a status body assembled from given in-range field
values returns exactly those values: the fixed little-endian header at
offsets 0..39, three stat-sets (recv then send `{count,size,error}`
u32-triples) at 40..111, and 25 `{freq(u32), hop(u16), rssi(i8),
rssi_prev(i8)}` channel records at 112..311. -/
theorem decode_status_roundtrip (s : Status) (h : s.wf) :
    decode_status (mkStatusBody s) = some s := by
  obtain ⟨h1, h2, h3, h4, h5, h6, h7, h8, h9, h10, h11, h12, h13, h14, hlen, hchan⟩ := h
  simp only [mkStatusBody, le32, le64, le16, List.cons_append, List.nil_append,
    List.append_assoc]
  simp only [decode_status]
  rw [decode_status_set_mk s.phy_stat _ h12]
  dsimp only
  rw [decode_status_set_mk s.mac_stat _ h13]
  dsimp only
  rw [decode_status_set_mk s.net_stat _ h14]
  dsimp only
  rw [show ((s.chan.map mkChan).flatten : List Nat)
        = (s.chan.map mkChan).flatten ++ [] from (List.append_nil _).symm]
  rw [show PHY_CHAN_COUNT = s.chan.length from hlen.symm]
  rw [decode_chan_loop_mk s.chan 0 [] hchan]
  dsimp only
  rw [u32v_le32 s.version h1, u32v_le32 s.date h2, u64v_le64 s.serial h3,
    u32v_le32 s.uptime h4,
    show s.addr % 256 + 256 * (s.addr / 256 % 256) = s.addr from by omega,
    Nat.mod_eq_of_lt h6, Nat.mod_eq_of_lt h7,
    u32v_le32 s.phy_su h8, u32v_le32 s.mac_su_rx h9,
    u32v_le32 s.heap_free h10, u32v_le32 s.heap_usage h11]

/-- Witness for C7: a concrete status with 25 channel records. -/
theorem decode_status_roundtrip_witness :
    (Status.wf
      { version := 16909060, date := 1600000000, serial := 81985529216486895,
        uptime := 123456, addr := 19401, cell := 1, rdid := 2,
        phy_su := 1000, mac_su_rx := 2000, heap_free := 3000, heap_usage := 4000,
        phy_stat := { recv := { count := 1, size := 2, error := 3 },
                      send := { count := 4, size := 5, error := 6 } },
        mac_stat := { recv := { count := 7, size := 8, error := 9 },
                      send := { count := 10, size := 11, error := 12 } },
        net_stat := { recv := { count := 13, size := 14, error := 15 },
                      send := { count := 16, size := 17, error := 18 } },
        chan := (List.range 25).map fun k =>
          { id := k, id_hop := 100 + k, freq := 902000000 + k,
            rssi := -50, rssi_prev := 0 } })
    ∧ decode_status (mkStatusBody
      { version := 16909060, date := 1600000000, serial := 81985529216486895,
        uptime := 123456, addr := 19401, cell := 1, rdid := 2,
        phy_su := 1000, mac_su_rx := 2000, heap_free := 3000, heap_usage := 4000,
        phy_stat := { recv := { count := 1, size := 2, error := 3 },
                      send := { count := 4, size := 5, error := 6 } },
        mac_stat := { recv := { count := 7, size := 8, error := 9 },
                      send := { count := 10, size := 11, error := 12 } },
        net_stat := { recv := { count := 13, size := 14, error := 15 },
                      send := { count := 16, size := 17, error := 18 } },
        chan := (List.range 25).map fun k =>
          { id := k, id_hop := 100 + k, freq := 902000000 + k,
            rssi := -50, rssi_prev := 0 } })
      = some
      { version := 16909060, date := 1600000000, serial := 81985529216486895,
        uptime := 123456, addr := 19401, cell := 1, rdid := 2,
        phy_su := 1000, mac_su_rx := 2000, heap_free := 3000, heap_usage := 4000,
        phy_stat := { recv := { count := 1, size := 2, error := 3 },
                      send := { count := 4, size := 5, error := 6 } },
        mac_stat := { recv := { count := 7, size := 8, error := 9 },
                      send := { count := 10, size := 11, error := 12 } },
        net_stat := { recv := { count := 13, size := 14, error := 15 },
                      send := { count := 16, size := 17, error := 18 } },
        chan := (List.range 25).map fun k =>
          { id := k, id_hop := 100 + k, freq := 902000000 + k,
            rssi := -50, rssi_prev := 0 } } := by
  have hwf : Status.wf
      { version := 16909060, date := 1600000000, serial := 81985529216486895,
        uptime := 123456, addr := 19401, cell := 1, rdid := 2,
        phy_su := 1000, mac_su_rx := 2000, heap_free := 3000, heap_usage := 4000,
        phy_stat := { recv := { count := 1, size := 2, error := 3 },
                      send := { count := 4, size := 5, error := 6 } },
        mac_stat := { recv := { count := 7, size := 8, error := 9 },
                      send := { count := 10, size := 11, error := 12 } },
        net_stat := { recv := { count := 13, size := 14, error := 15 },
                      send := { count := 16, size := 17, error := 18 } },
        chan := (List.range 25).map fun k =>
          { id := k, id_hop := 100 + k, freq := 902000000 + k,
            rssi := -50, rssi_prev := 0 } } := by
    unfold Status.wf StatSet.wf StatTriple.wf PHY_CHAN_COUNT
    norm_num [List.range_succ, chanListWf]
  exact ⟨hwf, decode_status_roundtrip _ hwf⟩

end CCIO
